import Mathlib

/-!
# Verification of the BSerializer codec engine

A shallow embedding of the BSerializer header-only binary serialization
library (`src/include/bserializer/serializer.h` and `src/Serializable.h`).

Bytes are modelled as natural numbers below 256 in little-endian order on
the wire.  Supported C++ types are modelled by the inductive `Ty` (variant
alternatives use `Option Ty`, with `none` standing for `std::monostate`),
and runtime values by `Val`.  The three engine operations
`BSerializer::SerializedSize`, `BSerializer::Serialize` and
`BSerializer::Deserialize` are translated branch by branch; the
`details::variantHelper2` recursion over the alternative pack is kept as an
explicit walk over the alternative list, including its `std::out_of_range`
throw paths (modelled as `Except.error`).
-/

namespace BSerializer

/-- Little-endian byte encoding of `n` on `w` bytes, mirroring what
`memcpy` of a `w`-byte unsigned integer produces on the wire after
`ToFromLittleEndian` (least significant byte first). -/
def natToBytesLE : Nat → Nat → List Nat
  | 0, _ => []
  | w + 1, n => n % 256 :: natToBytesLE w (n / 256)

/-- Little-endian byte decoding, mirroring reading a `w`-byte unsigned
integer from the wire. -/
def bytesToNatLE : List Nat → Nat
  | [] => 0
  | b :: bs => b + 256 * bytesToNatLE bs

/-- Read exactly `k` bytes from the front of the input, failing when the
input is shorter.  This models the read cursor advancing by `k` bytes:
running out of bytes corresponds to the C++ code reading past the
caller-supplied buffer. -/
def readBytes (k : Nat) (data : List Nat) : Option (List Nat × List Nat) :=
  if k ≤ data.length then some (data.take k, data.drop k) else none

/-! ## Endianness model

`details::byteSwap` reverses the `sizeof(_T)` bytes of a value in place;
`BSerializer::ToFromLittleEndian` applies it exactly when the host is
big-endian.  The arithmetic branch of `BSerializer::Serialize` computes
`_T v2 = ToFromLittleEndian(Value)` and then `memcpy`s the `sizeof(_T)`
bytes of `v2` onto the wire, for floating-point types just as for
integers.  We model a host by its endianness and an arithmetic value by
its native in-memory byte list. -/

/-- Host byte order. -/
inductive Endian where
  | little
  | big
deriving DecidableEq

/-- `details::byteSwap`: `std::reverse` over the `sizeof(_T)` bytes of the
value. -/
def byteSwap (bytes : List Nat) : List Nat :=
  bytes.reverse

/-- `BSerializer::ToFromLittleEndian` acting on the byte representation of
a value: on a big-endian host the bytes are reversed, otherwise the value
is returned unchanged. -/
def ToFromLittleEndian (e : Endian) (bytes : List Nat) : List Nat :=
  if e = Endian.big then byteSwap bytes else bytes

/-- The bytes the arithmetic branch of `BSerializer::Serialize` places on
the wire for a value whose native in-memory bytes are `native`:
`ToFromLittleEndian` followed by a plain `memcpy`. -/
def arithWireBytes (e : Endian) (native : List Nat) : List Nat :=
  ToFromLittleEndian e native

/-- Native in-memory bytes of a `w`-byte unsigned integer with numeric
value `n` on a host of endianness `e`: a little-endian host stores the
least significant byte first, a big-endian host stores it last. -/
def nativeIntBytes (e : Endian) (w n : Nat) : List Nat :=
  match e with
  | Endian.little => natToBytesLE w n
  | Endian.big => (natToBytesLE w n).reverse

/-! ## Supported types and values

`Ty` mirrors the closed classification of `BSerializer::Serializable`
(src/Serializable.h): arithmetic types of a given byte width, collections
(with `value_type` `bool` bit-packed separately), `std::pair`,
`std::tuple`, `std::array`, `std::optional`, `std::variant` (an
alternative `none` stands for `std::monostate`), `std::complex`,
`std::chrono::duration` and `std::chrono::time_point`.  Maps are
collections of pairs.  `Val` mirrors the runtime values; a variant value
carries its declared alternative list, its runtime index (`std::variant::
index()`, which is `2^64 - 1` for a valueless variant) and, when the
active alternative is not `std::monostate`, its payload. -/

inductive Ty where
  | arith (w : Nat)
  | boolCol
  | col (elem : Ty)
  | pair (a b : Ty)
  | tup (ts : List Ty)
  | arr (elem : Ty) (n : Nat)
  | opt (t : Ty)
  | variant (alts : List (Option Ty))
  | cplx (w : Nat)
  | dur (w : Nat)
  | timePoint (w : Nat)

inductive Val where
  | arith (w n : Nat)
  | boolCol (bs : List Bool)
  | col (vs : List Val)
  | pair (a b : Val)
  | tup (vs : List Val)
  | arr (vs : List Val)
  | opt (v : Option Val)
  | variant (alts : List (Option Ty)) (idx : Nat) (payload : Option Val)
  | cplx (w re im : Nat)
  | dur (w n : Nat)
  | timePoint (w n : Nat)

/-- `(std::same_as<std::monostate, _Ts> || ...)`: some declared
alternative is `std::monostate`. -/
def hasMono (alts : List (Option Ty)) : Bool :=
  alts.any fun a => a.isNone

/-- Position of the `std::monostate` alternative: the index at which
`new (Variant) std::variant<_Ts...>(std::monostate())` constructs the
variant. -/
def monoIdx (alts : List (Option Ty)) : Nat :=
  alts.findIdx fun a => a.isNone

/-! ## Boolean bit-packing

The collection branch of `BSerializer::Serialize` packs booleans into a
`uint64_t c` under a walking mask `uint64_t m`, emitting a full 8-byte
word whenever `m` overflows to zero, and finally flushing the last partial
word with only as many bytes as its *value* needs (`if (!(c >> 8)) i = 1;
else if (!(c >> 16)) i = 2; ...`). -/

/-- The byte count `i` chosen by the trailing flush of the bool-collection
branch of `BSerializer::Serialize` for the final packed word `c`. -/
def flushLen (c : Nat) : Nat :=
  if c >>> 8 = 0 then 1
  else if c >>> 16 = 0 then 2
  else if c >>> 24 = 0 then 3
  else if c >>> 32 = 0 then 4
  else if c >>> 40 = 0 then 5
  else if c >>> 48 = 0 then 6
  else if c >>> 56 = 0 then 7
  else 8

/-- The packing loop of the bool-collection branch of
`BSerializer::Serialize`, together with its trailing flush.  `m` and `c`
are the `uint64_t` mask and accumulator (`m <<= 1` overflows to `0` after
64 shifts); when `m` is zero at the head of an iteration the full word is
emitted and the state reset.  At the end of the input, a nonzero `m`
flushes `flushLen c` bytes of `c`, and a zero `m` emits the full 8-byte
word. -/
def serBoolsAux : List Bool → Nat → Nat → List Nat
  | [], m, c =>
    if m ≠ 0 then natToBytesLE (flushLen c) c
    else natToBytesLE 8 c
  | v :: vs, m, c =>
    if m = 0 then
      natToBytesLE 8 c ++
        serBoolsAux vs ((1 * 2) % 2 ^ 64) (if v then 0 ||| 1 else 0)
    else
      serBoolsAux vs ((m * 2) % 2 ^ 64) (if v then c ||| m else c)

/-- Unpacking `cnt` booleans from a packed word `c`: `*p_v = (bool)(c & m)`
with `m` the walking power of two. -/
def bitsOfNat (cnt c : Nat) : List Bool :=
  (List.range cnt).map fun k => c.testBit k

/-- The full-word loop of the bool-collection branch of
`BSerializer::Deserialize`: read `k` 8-byte words and unpack 64 booleans
from each. -/
def readBoolWords : Nat → List Nat → Option (List Bool × List Nat)
  | 0, data => some ([], data)
  | k + 1, data => do
    let (wb, d1) ← readBytes 8 data
    let (rest, d2) ← readBoolWords k d1
    some (bitsOfNat 64 (bytesToNatLE wb) ++ rest, d2)

/-! ## Size calculator and writer

`BSerializer::SerializedSize` and `BSerializer::Serialize`, branch by
branch over the classification, including the `details::variantHelper2`
recursion with its `std::out_of_range` throw (modelled as
`Except.error ()`) when the runtime index of a variant matches no declared
alternative and no `std::monostate` alternative exists. -/

mutual

/-- `BSerializer::SerializedSize`. -/
def serializedSize : Val → Except Unit Nat
  | Val.arith w _ => Except.ok w
  | Val.boolCol bs =>
    Except.ok (8 + (bs.length >>> 3) + (if bs.length &&& 7 ≠ 0 then 1 else 0))
  | Val.col vs => do
    let s ← sizeSum vs
    Except.ok (8 + s)
  | Val.pair a b => do
    let sa ← serializedSize a
    let sb ← serializedSize b
    Except.ok (sa + sb)
  | Val.tup vs => sizeSum vs
  | Val.arr vs => sizeSum vs
  | Val.opt none => Except.ok 1
  | Val.opt (some v) => do
    let s ← serializedSize v
    Except.ok (1 + s)
  | Val.variant alts idx payload =>
    variantSSizeAux (hasMono alts) idx payload alts 0
  | Val.cplx w _ _ => Except.ok (w <<< 1)
  | Val.dur w _ => Except.ok w
  | Val.timePoint w _ => Except.ok w
termination_by v => sizeOf v

/-- Summation of element sizes (the `for (auto& v : Value) t +=
SerializedSize(v);` loops). -/
def sizeSum : List Val → Except Unit Nat
  | [] => Except.ok 0
  | v :: vs => do
    let s ← serializedSize v
    let t ← sizeSum vs
    Except.ok (s + t)
termination_by vs => sizeOf vs

/-- `details::variantHelper2<_Index, _Ts...>::SerializedSize`: walk the
alternatives comparing `Variant.index()` with each position; past the end,
return `sizeof(size_t)` when a `std::monostate` alternative exists and
throw `std::out_of_range` otherwise. -/
def variantSSizeAux (hm : Bool) (idx : Nat) (payload : Option Val) :
    List (Option Ty) → Nat → Except Unit Nat
  | [], _ => if hm then Except.ok 8 else Except.error ()
  | a :: rest, pos =>
    if idx = pos then
      match a with
      | none => Except.ok 8
      | some _ =>
        match payload with
        | some v => do
          let s ← serializedSize v
          Except.ok (8 + s)
        | none => Except.error ()
    else variantSSizeAux hm idx payload rest (pos + 1)
termination_by suffix _ => sizeOf payload + sizeOf suffix

end

mutual

/-- `BSerializer::Serialize`; the returned byte list is what is written
through the cursor, so its length is the distance the cursor advances. -/
def serialize : Val → Except Unit (List Nat)
  | Val.arith w n => Except.ok (natToBytesLE w n)
  | Val.boolCol bs =>
    Except.ok (natToBytesLE 8 bs.length ++
      (if bs.length ≠ 0 then serBoolsAux bs 1 0 else []))
  | Val.col vs => do
    let b ← serList vs
    Except.ok (natToBytesLE 8 vs.length ++ b)
  | Val.pair a b => do
    let ba ← serialize a
    let bb ← serialize b
    Except.ok (ba ++ bb)
  | Val.tup vs => serList vs
  | Val.arr vs => serList vs
  | Val.opt none => Except.ok (natToBytesLE 1 0)
  | Val.opt (some v) => do
    let bv ← serialize v
    Except.ok (natToBytesLE 1 1 ++ bv)
  | Val.variant alts idx payload =>
    variantSerAux (hasMono alts) idx payload alts 0
  | Val.cplx w re im => Except.ok (natToBytesLE w re ++ natToBytesLE w im)
  | Val.dur w n => Except.ok (natToBytesLE w n)
  | Val.timePoint w n => Except.ok (natToBytesLE w n)
termination_by v => sizeOf v

/-- Concatenated serialization of a list of elements (the
`for (auto& v : Value) Serialize(Data, v);` loops). -/
def serList : List Val → Except Unit (List Nat)
  | [] => Except.ok []
  | v :: vs => do
    let b ← serialize v
    let bs ← serList vs
    Except.ok (b ++ bs)
termination_by vs => sizeOf vs

/-- `details::variantHelper2<_Index, _Ts...>::Serialize`: walk the
alternatives; at the matching position write the positional ordinal as an
8-byte integer followed by the payload unless the alternative is
`std::monostate`; past the end, write the all-ones sentinel
`(size_t)0 - (size_t)1` when a `std::monostate` alternative exists and
throw `std::out_of_range` otherwise. -/
def variantSerAux (hm : Bool) (idx : Nat) (payload : Option Val) :
    List (Option Ty) → Nat → Except Unit (List Nat)
  | [], _ =>
    if hm then Except.ok (natToBytesLE 8 (2 ^ 64 - 1)) else Except.error ()
  | a :: rest, pos =>
    if idx = pos then
      match a with
      | none => Except.ok (natToBytesLE 8 pos)
      | some _ =>
        match payload with
        | some v => do
          let bv ← serialize v
          Except.ok (natToBytesLE 8 pos ++ bv)
        | none => Except.error ()
    else variantSerAux hm idx payload rest (pos + 1)
termination_by suffix _ => sizeOf payload + sizeOf suffix

end

/-! ## Reader

`BSerializer::Deserialize`, driven by the static type.  Deserialization
has two failure modes: `DErr.badVariant` models the `std::out_of_range`
thrown for a decoded variant ordinal outside the declared alternatives
when no `std::monostate` alternative exists (the one structured runtime
decode error), and `DErr.shortRead` marks the cursor running past the end
of the supplied bytes (which the C++ code does not detect: it would read
unspecified memory there). -/

inductive DErr where
  | shortRead
  | badVariant
deriving DecidableEq

/-- Lift a cursor read to the deserializer's error type. -/
def readE (k : Nat) (data : List Nat) : Except DErr (List Nat × List Nat) :=
  match readBytes k data with
  | some r => Except.ok r
  | none => Except.error DErr.shortRead

mutual

/-- `BSerializer::Deserialize`, returning the decoded value and the bytes
left after the cursor.  The bool-collection branch mirrors the two-phase
loop of the source: `len & ~63` booleans from full 8-byte words, then
`(r >> 3) + ((r & 7) ? 1 : 0)` bytes for the `r = len % 64` remaining
booleans. -/
def deserialize : Ty → List Nat → Except DErr (Val × List Nat)
  | Ty.arith w, data => do
    let (bs, d1) ← readE w data
    Except.ok (Val.arith w (bytesToNatLE bs), d1)
  | Ty.boolCol, data => do
    let (lenB, d1) ← readE 8 data
    let len := bytesToNatLE lenB
    match readBoolWords (len / 64) d1 with
    | none => Except.error DErr.shortRead
    | some (bits, d2) =>
      let r := len % 64
      if r = 0 then Except.ok (Val.boolCol bits, d2)
      else do
        let i := (r >>> 3) + (if r &&& 7 ≠ 0 then 1 else 0)
        let (cb, d3) ← readE i d2
        Except.ok (Val.boolCol (bits ++ bitsOfNat r (bytesToNatLE cb)), d3)
  | Ty.col t, data => do
    let (lenB, d1) ← readE 8 data
    let (vs, d2) ← deserializeList t (bytesToNatLE lenB) d1
    Except.ok (Val.col vs, d2)
  | Ty.pair a b, data => do
    let (va, d1) ← deserialize a data
    let (vb, d2) ← deserialize b d1
    Except.ok (Val.pair va vb, d2)
  | Ty.tup ts, data => do
    let (vs, d1) ← deserializeTupAux ts data
    Except.ok (Val.tup vs, d1)
  | Ty.arr t n, data => do
    let (vs, d1) ← deserializeList t n data
    Except.ok (Val.arr vs, d1)
  | Ty.opt t, data => do
    let (fb, d1) ← readE 1 data
    if bytesToNatLE fb ≠ 0 then do
      let (v, d2) ← deserialize t d1
      Except.ok (Val.opt (some v), d2)
    else Except.ok (Val.opt none, d1)
  | Ty.variant alts, data => do
    let (tagB, d1) ← readE 8 data
    variantDeserAux alts (bytesToNatLE tagB) alts 0 d1
  | Ty.cplx w, data => do
    let (reB, d1) ← readE w data
    let (imB, d2) ← readE w d1
    Except.ok (Val.cplx w (bytesToNatLE reB) (bytesToNatLE imB), d2)
  | Ty.dur w, data => do
    let (bs, d1) ← readE w data
    Except.ok (Val.dur w (bytesToNatLE bs), d1)
  | Ty.timePoint w, data => do
    let (bs, d1) ← readE w data
    Except.ok (Val.timePoint w (bytesToNatLE bs), d1)
termination_by t _ => (sizeOf t, 0)

/-- Element loop of the collection and array branches of
`BSerializer::Deserialize`: read `n` values of type `t` in order. -/
def deserializeList (t : Ty) : Nat → List Nat → Except DErr (List Val × List Nat)
  | 0, data => Except.ok ([], data)
  | n + 1, data => do
    let (v, d1) ← deserialize t data
    let (vs, d2) ← deserializeList t n d1
    Except.ok (v :: vs, d2)
termination_by n _ => (sizeOf t, n + 1)

/-- `details::tupleDeserializer2::DeserializeTuple`: read the components
of a tuple in declaration order. -/
def deserializeTupAux : List Ty → List Nat → Except DErr (List Val × List Nat)
  | [], data => Except.ok ([], data)
  | t :: ts, data => do
    let (v, d1) ← deserialize t data
    let (vs, d2) ← deserializeTupAux ts d1
    Except.ok (v :: vs, d2)
termination_by ts _ => (sizeOf ts, 0)

/-- `details::variantHelper2<_Index, _Ts...>::Deserialize`: walk the
alternatives comparing the decoded ordinal with each position; at a
matching `std::monostate` alternative, or past the end when a
`std::monostate` alternative exists, construct the variant holding
`std::monostate`; past the end without one, throw `std::out_of_range`. -/
def variantDeserAux (alts : List (Option Ty)) (idx : Nat) :
    List (Option Ty) → Nat → List Nat → Except DErr (Val × List Nat)
  | [], _, data =>
    if hasMono alts then Except.ok (Val.variant alts (monoIdx alts) none, data)
    else Except.error DErr.badVariant
  | a :: rest, pos, data =>
    if idx = pos then
      match a with
      | none => Except.ok (Val.variant alts (monoIdx alts) none, data)
      | some t => do
        let (v, d1) ← deserialize t data
        Except.ok (Val.variant alts idx (some v), d1)
    else variantDeserAux alts idx rest (pos + 1) data
termination_by suffix _ _ => (sizeOf suffix, 0)

end

/-! ## Serializable runtime states

`serOk v` holds for the runtime states a C++ program can present to
`SerializedSize`/`Serialize` that reach no throw path: every variant
subvalue either has its runtime index at a declared alternative (with a
payload present unless that alternative is `std::monostate`), or is
valueless while a `std::monostate` alternative is declared.  The only
states excluded are valueless variants of monostate-free variant types —
exactly the states on which `details::variantHelper2` throws
`std::out_of_range` during both size calculation and writing. -/

def serOk : Val → Bool
  | Val.arith _ _ => true
  | Val.boolCol _ => true
  | Val.col vs => vs.attach.all fun x => serOk x.1
  | Val.pair a b => serOk a && serOk b
  | Val.tup vs => vs.attach.all fun x => serOk x.1
  | Val.arr vs => vs.attach.all fun x => serOk x.1
  | Val.opt none => true
  | Val.opt (some v) => serOk v
  | Val.variant alts idx payload =>
    match alts[idx]? with
    | some none => true
    | some (some _) =>
      match payload with
      | some v => serOk v
      | none => false
    | none => hasMono alts
  | Val.cplx _ _ _ => true
  | Val.dur _ _ => true
  | Val.timePoint _ _ => true
termination_by v => sizeOf v
decreasing_by
  all_goals simp_wf
  all_goals first
  | (have hlt := List.sizeOf_lt_of_mem x.2; omega)
  | omega

/-! ## Top-level dispatch

The chains of `if constexpr` in `BSerializer::SerializedSize`,
`BSerializer::Serialize` and `BSerializer::Deserialize` test
`BuiltInSerializable<_T>` first: a type providing its own
`SerializedSize`/`Serialize`/`Deserialize` methods is deferred to before
any structural classification is consulted, even if the type would also
satisfy one.  A `Codec` is the three-method contract of such a type, and a
`TyDesc` describes a C++ type by its optional built-in codec together with
the structural classification the remaining branches would use. -/

/-- The three-method contract of `BSerializer::BuiltInSerializable`. -/
structure Codec where
  size : Val → Except Unit Nat
  write : Val → Except Unit (List Nat)
  read : List Nat → Except DErr (Val × List Nat)

/-- A serializable C++ type: an optional built-in codec (the
`BuiltInSerializable` branch) plus the structural classification used by
the later branches. -/
structure TyDesc where
  builtin : Option Codec
  shape : Ty

/-- Top-level `BSerializer::SerializedSize`: the `BuiltInSerializable`
branch first, then structural dispatch. -/
def SerializedSize (d : TyDesc) (v : Val) : Except Unit Nat :=
  match d.builtin with
  | some c => c.size v
  | none => serializedSize v

/-- Top-level `BSerializer::Serialize`: the `BuiltInSerializable` branch
first, then structural dispatch. -/
def Serialize (d : TyDesc) (v : Val) : Except Unit (List Nat) :=
  match d.builtin with
  | some c => c.write v
  | none => serialize v

/-- Top-level `BSerializer::Deserialize`: the `BuiltInSerializable` branch
first, then structural dispatch on the type. -/
def Deserialize (d : TyDesc) (data : List Nat) : Except DErr (Val × List Nat) :=
  match d.builtin with
  | some c => c.read data
  | none => deserialize d.shape data

/-- An example `BuiltInSerializable` codec: a fixed size, fixed bytes and a
fixed decoded value, standing for a user type with custom layout. -/
def customCodec : Codec where
  size := fun _ => Except.ok 7
  write := fun _ => Except.ok [1, 2]
  read := fun data => Except.ok (Val.arith 1 0, data)

/-- A type providing `customCodec` as its built-in methods while its
structural classification is a boolean collection: both the
`BuiltInSerializable` and the `SerializableCollection` branches match it. -/
def customTyDesc : TyDesc where
  builtin := some customCodec
  shape := Ty.boolCol

/-! ## Byte-level lemmas -/

theorem natToBytesLE_length (w n : Nat) : (natToBytesLE w n).length = w := by
  induction w generalizing n with
  | zero => rfl
  | succ k ih => simp [natToBytesLE, ih]

theorem readBytes_append (k : Nat) (bs rest : List Nat) (h : bs.length = k) :
    readBytes k (bs ++ rest) = some (bs, rest) := by
  subst h
  simp [readBytes, List.take_left, List.drop_left]

theorem readE_append (k : Nat) (bs rest : List Nat) (h : bs.length = k) :
    readE k (bs ++ rest) = Except.ok (bs, rest) := by
  rw [readE, readBytes_append k bs rest h]

theorem bytesToNatLE_natToBytesLE (w n : Nat) :
    bytesToNatLE (natToBytesLE w n) = n % 256 ^ w := by
  induction w generalizing n with
  | zero => simp [natToBytesLE, bytesToNatLE]; omega
  | succ k ih =>
    have h1 : n % (256 * 256 ^ k) % 256 = n % 256 :=
      Nat.mod_mod_of_dvd n (dvd_mul_right 256 (256 ^ k))
    have h2 : n % (256 * 256 ^ k) / 256 = n / 256 % 256 ^ k :=
      Nat.mod_mul_right_div_self n 256 (256 ^ k)
    have h3 := Nat.div_add_mod (n % (256 * 256 ^ k)) 256
    simp only [natToBytesLE, bytesToNatLE, ih]
    rw [pow_succ, mul_comm (256 ^ k) 256]
    omega

theorem natToBytesLE_inj (w n m : Nat) (hn : n < 256 ^ w) (hm : m < 256 ^ w)
    (h : natToBytesLE w n = natToBytesLE w m) : n = m := by
  have ha := bytesToNatLE_natToBytesLE w n
  have hb := bytesToNatLE_natToBytesLE w m
  rw [h, hb, Nat.mod_eq_of_lt hm] at ha
  rw [Nat.mod_eq_of_lt hn] at ha
  exact ha.symm

/-! ## Walk lemmas for the variant helper recursions -/

theorem variantSSizeAux_cons_ne (hm : Bool) (idx : Nat) (payload : Option Val)
    (a : Option Ty) (rest : List (Option Ty)) (pos : Nat) (hne : idx ≠ pos) :
    variantSSizeAux hm idx payload (a :: rest) pos =
      variantSSizeAux hm idx payload rest (pos + 1) := by
  rw [variantSSizeAux.eq_def]
  simp only [if_neg hne]

theorem variantSSizeAux_exhaust (hm : Bool) (idx : Nat) (payload : Option Val)
    (suffix : List (Option Ty)) (pos : Nat) (h : pos + suffix.length ≤ idx) :
    variantSSizeAux hm idx payload suffix pos =
      if hm then Except.ok 8 else Except.error () := by
  induction suffix generalizing pos with
  | nil => simp [variantSSizeAux]
  | cons a rest ih =>
    have hne : idx ≠ pos := by simp at h; omega
    rw [variantSSizeAux_cons_ne hm idx payload a rest pos hne]
    exact ih (pos + 1) (by simp at h ⊢; omega)

theorem variantSSizeAux_hit_mono (hm : Bool) (idx : Nat) (payload : Option Val)
    (suffix : List (Option Ty)) (pos : Nat) (hle : pos ≤ idx)
    (hget : suffix[idx - pos]? = some none) :
    variantSSizeAux hm idx payload suffix pos = Except.ok 8 := by
  induction suffix generalizing pos with
  | nil => simp at hget
  | cons a rest ih =>
    by_cases he : idx = pos
    · subst he
      simp only [Nat.sub_self, List.getElem?_cons_zero, Option.some.injEq] at hget
      subst hget
      rw [variantSSizeAux.eq_def]
      simp
    · have h1 : idx - pos = (idx - (pos + 1)) + 1 := by omega
      rw [h1] at hget
      simp only [List.getElem?_cons_succ] at hget
      rw [variantSSizeAux_cons_ne hm idx payload a rest pos he]
      exact ih (pos + 1) (by omega) hget

theorem variantSSizeAux_hit_payload (hm : Bool) (idx : Nat) (v : Val) (s : Nat)
    (t : Ty) (suffix : List (Option Ty)) (pos : Nat) (hle : pos ≤ idx)
    (hget : suffix[idx - pos]? = some (some t))
    (hs : serializedSize v = Except.ok s) :
    variantSSizeAux hm idx (some v) suffix pos = Except.ok (8 + s) := by
  induction suffix generalizing pos with
  | nil => simp at hget
  | cons a rest ih =>
    by_cases he : idx = pos
    · subst he
      simp only [Nat.sub_self, List.getElem?_cons_zero, Option.some.injEq] at hget
      subst hget
      rw [variantSSizeAux.eq_def]
      simp [hs, bind, Except.bind]
    · have h1 : idx - pos = (idx - (pos + 1)) + 1 := by omega
      rw [h1] at hget
      simp only [List.getElem?_cons_succ] at hget
      rw [variantSSizeAux_cons_ne hm idx (some v) a rest pos he]
      exact ih (pos + 1) (by omega) hget

theorem variantSerAux_cons_ne (hm : Bool) (idx : Nat) (payload : Option Val)
    (a : Option Ty) (rest : List (Option Ty)) (pos : Nat) (hne : idx ≠ pos) :
    variantSerAux hm idx payload (a :: rest) pos =
      variantSerAux hm idx payload rest (pos + 1) := by
  rw [variantSerAux.eq_def]
  simp only [if_neg hne]

theorem variantSerAux_exhaust (hm : Bool) (idx : Nat) (payload : Option Val)
    (suffix : List (Option Ty)) (pos : Nat) (h : pos + suffix.length ≤ idx) :
    variantSerAux hm idx payload suffix pos =
      if hm then Except.ok (natToBytesLE 8 (2 ^ 64 - 1)) else Except.error () := by
  induction suffix generalizing pos with
  | nil => simp [variantSerAux]
  | cons a rest ih =>
    have hne : idx ≠ pos := by simp at h; omega
    rw [variantSerAux_cons_ne hm idx payload a rest pos hne]
    exact ih (pos + 1) (by simp at h ⊢; omega)

theorem variantSerAux_hit_mono (hm : Bool) (idx : Nat) (payload : Option Val)
    (suffix : List (Option Ty)) (pos : Nat) (hle : pos ≤ idx)
    (hget : suffix[idx - pos]? = some none) :
    variantSerAux hm idx payload suffix pos = Except.ok (natToBytesLE 8 idx) := by
  induction suffix generalizing pos with
  | nil => simp at hget
  | cons a rest ih =>
    by_cases he : idx = pos
    · subst he
      simp only [Nat.sub_self, List.getElem?_cons_zero, Option.some.injEq] at hget
      subst hget
      rw [variantSerAux.eq_def]
      simp
    · have h1 : idx - pos = (idx - (pos + 1)) + 1 := by omega
      rw [h1] at hget
      simp only [List.getElem?_cons_succ] at hget
      rw [variantSerAux_cons_ne hm idx payload a rest pos he]
      exact ih (pos + 1) (by omega) hget

theorem variantSerAux_hit_payload (hm : Bool) (idx : Nat) (v : Val)
    (bv : List Nat) (t : Ty) (suffix : List (Option Ty)) (pos : Nat)
    (hle : pos ≤ idx) (hget : suffix[idx - pos]? = some (some t))
    (hs : serialize v = Except.ok bv) :
    variantSerAux hm idx (some v) suffix pos =
      Except.ok (natToBytesLE 8 idx ++ bv) := by
  induction suffix generalizing pos with
  | nil => simp at hget
  | cons a rest ih =>
    by_cases he : idx = pos
    · subst he
      simp only [Nat.sub_self, List.getElem?_cons_zero, Option.some.injEq] at hget
      subst hget
      rw [variantSerAux.eq_def]
      simp [hs, bind, Except.bind]
    · have h1 : idx - pos = (idx - (pos + 1)) + 1 := by omega
      rw [h1] at hget
      simp only [List.getElem?_cons_succ] at hget
      rw [variantSerAux_cons_ne hm idx (some v) a rest pos he]
      exact ih (pos + 1) (by omega) hget

theorem variantDeserAux_cons_ne (alts : List (Option Ty)) (idx : Nat)
    (a : Option Ty) (rest : List (Option Ty)) (pos : Nat) (data : List Nat)
    (hne : idx ≠ pos) :
    variantDeserAux alts idx (a :: rest) pos data =
      variantDeserAux alts idx rest (pos + 1) data := by
  rw [variantDeserAux.eq_def]
  simp only [if_neg hne]

theorem variantDeserAux_exhaust (alts : List (Option Ty)) (idx : Nat)
    (suffix : List (Option Ty)) (pos : Nat) (data : List Nat)
    (h : pos + suffix.length ≤ idx) :
    variantDeserAux alts idx suffix pos data =
      if hasMono alts then
        Except.ok (Val.variant alts (monoIdx alts) none, data)
      else Except.error DErr.badVariant := by
  induction suffix generalizing pos with
  | nil => simp [variantDeserAux]
  | cons a rest ih =>
    have hne : idx ≠ pos := by simp at h; omega
    rw [variantDeserAux_cons_ne alts idx a rest pos data hne]
    exact ih (pos + 1) (by simp at h ⊢; omega)

/-! ## The claims -/

/-- Claim C1: deserializing the bytes produced by serializing a value is
claimed to return the value for every supported type.  The claim fails on
the code: for the 9-element all-false boolean collection, `Serialize`
emits a single payload byte after the 8-byte length prefix (the trailing
flush sizes the partial word by its value, which is zero), while
`Deserialize` consumes `ceil(9/8) = 2` payload bytes, so reading the
serialized bytes runs one byte past what was produced instead of
reconstructing the value. -/
theorem claim1_roundtrip_fails_on_bool_collection :
    serialize (Val.boolCol (List.replicate 9 false)) =
      Except.ok [9, 0, 0, 0, 0, 0, 0, 0, 0] ∧
    deserialize Ty.boolCol [9, 0, 0, 0, 0, 0, 0, 0, 0] =
      Except.error DErr.shortRead := by
  constructor
  · simp [serialize, serBoolsAux, flushLen, natToBytesLE, List.replicate]
  · simp [deserialize, readE, readBytes, bytesToNatLE, readBoolWords, bind,
      Except.bind]

/-- Claim C2: the cursor is claimed to advance by exactly
`SerializedSize(v)` bytes during `Serialize(Data, v)` for every supported
value.  The claim fails on the code: for the 9-element all-false boolean
collection, `SerializedSize` reports 10 bytes but `Serialize` writes only
9 (its trailing flush emits 1 byte for the zero-valued partial word where
the size calculator counts `ceil(9/8) = 2`). -/
theorem claim2_serialize_advance_mismatch :
    serializedSize (Val.boolCol (List.replicate 9 false)) = Except.ok 10 ∧
    (serialize (Val.boolCol (List.replicate 9 false))).map List.length =
      Except.ok 9 := by
  constructor
  · simp [serializedSize, List.replicate]
  · simp [serialize, serBoolsAux, flushLen, natToBytesLE, List.replicate,
      Except.map]

/-- Claim C3: serializing a boolean collection of length `n` is claimed to
produce exactly `8 + ceil(n/8)` bytes, which decode back to the original
booleans.  The claim fails on the code: the 10-element collection
`true :: replicate 9 false` serializes to 9 bytes, not
`8 + ceil(10/8) = 10`, because the trailing flush emits only as many bytes
as the packed word value occupies; deserializing the produced bytes then
runs out of input instead of recovering the 10 booleans. -/
theorem claim3_bitpacking_byte_count_mismatch :
    serialize (Val.boolCol (true :: List.replicate 9 false)) =
      Except.ok [10, 0, 0, 0, 0, 0, 0, 0, 1] ∧
    8 + (10 + 7) / 8 = 10 ∧
    deserialize Ty.boolCol [10, 0, 0, 0, 0, 0, 0, 0, 1] =
      Except.error DErr.shortRead := by
  refine ⟨?_, by norm_num, ?_⟩
  · simp [serialize, serBoolsAux, flushLen, natToBytesLE, List.replicate]
  · simp [deserialize, readE, readBytes, bytesToNatLE, readBoolWords, bind,
      Except.bind]

/-- Claim C5: floating-point values are claimed to be written in their
native in-memory byte representation with no byte-order conversion on
hosts of either endianness.  Counterexample: on a big-endian host the
arithmetic branch of `Serialize` passes the value through
`ToFromLittleEndian`, which applies `details::byteSwap`, so the wire bytes
of a float with native bytes `[0,1,2,3,4,5,6,7]` are the reversal of its
native bytes, not the native bytes. -/
theorem claim5_counterexample :
    arithWireBytes Endian.big [0, 1, 2, 3, 4, 5, 6, 7] ≠
      [0, 1, 2, 3, 4, 5, 6, 7] := by
  decide

/-- Claim C5 (amended): every arithmetic value, floating point included,
passes through `ToFromLittleEndian` on its way to the wire: on a
little-endian host the wire bytes equal the native bytes, while on a
big-endian host they are the `byteSwap` (byte reversal) of the native
bytes — the same normalization integers receive, which for integers
yields the little-endian encoding on hosts of either endianness. -/
theorem claim5_amended (w n : Nat) (native : List Nat) :
    arithWireBytes Endian.little native = native ∧
    arithWireBytes Endian.big native = byteSwap native ∧
    arithWireBytes Endian.little (nativeIntBytes Endian.little w n) =
      natToBytesLE w n ∧
    arithWireBytes Endian.big (nativeIntBytes Endian.big w n) =
      natToBytesLE w n := by
  refine ⟨rfl, rfl, rfl, ?_⟩
  simp [arithWireBytes, ToFromLittleEndian, byteSwap, nativeIntBytes]

/-- Claim C10: the serialized size of a boolean collection depends only on
its element count, never on the truth values of its elements: any two
boolean collections of equal length get the same `SerializedSize`. -/
theorem claim10_boolcol_size_only_length (bs1 bs2 : List Bool)
    (h : bs1.length = bs2.length) :
    serializedSize (Val.boolCol bs1) = serializedSize (Val.boolCol bs2) := by
  simp only [serializedSize, h]

/-- Witness for claim C10 at two concrete collections of length 3. -/
theorem claim10_witness :
    serializedSize (Val.boolCol [true, true, true]) =
      serializedSize (Val.boolCol [false, false, false]) :=
  claim10_boolcol_size_only_length [true, true, true] [false, false, false]
    rfl

/-- Claim C4: during variant deserialization, a decoded ordinal outside
the range of declared alternatives throws the structured
`std::out_of_range` error when the variant declares no `std::monostate`
alternative, and produces the variant holding `std::monostate` when one is
declared. -/
theorem claim4_variant_bad_ordinal (alts : List (Option Ty)) (j : Nat)
    (rest : List Nat) (hj : alts.length ≤ j) (hj64 : j < 2 ^ 64) :
    deserialize (Ty.variant alts) (natToBytesLE 8 j ++ rest) =
      if hasMono alts then
        Except.ok (Val.variant alts (monoIdx alts) none, rest)
      else Except.error DErr.badVariant := by
  have hr : readE 8 (natToBytesLE 8 j ++ rest) =
      Except.ok (natToBytesLE 8 j, rest) :=
    readE_append 8 _ rest (natToBytesLE_length 8 j)
  have hv : bytesToNatLE (natToBytesLE 8 j) = j := by
    rw [bytesToNatLE_natToBytesLE]
    have h8 : (256 : Nat) ^ 8 = 2 ^ 64 := by norm_num
    rw [h8, Nat.mod_eq_of_lt hj64]
  rw [deserialize, hr]
  simp only [bind, Except.bind, hv]
  exact variantDeserAux_exhaust alts j alts 0 rest (by simpa using hj)

/-- Witness for claim C4: ordinal 3 against the single-alternative variant
whose only alternative is the `std::monostate` marker collapses to the
monostate state. -/
theorem claim4_witness :
    deserialize (Ty.variant [none]) (natToBytesLE 8 3) =
      Except.ok (Val.variant [none] 0 none, []) := by
  have h := claim4_variant_bad_ordinal [none] 3 [] (by norm_num) (by norm_num)
  simpa [hasMono, monoIdx] using h

/-- Claim C7: an empty optional has serialized size 1 (the presence flag)
and a present optional has size `1 + SerializedSize(contained)`;
deserializing an absent encoding (flag byte 0) yields the empty optional
and deserializing a present encoding (flag byte 1 followed by the payload
encoding) yields an optional holding the encoded value. -/
theorem claim7_optional (t : Ty) (v w : Val) (s : Nat)
    (rest rest0 rest1 : List Nat)
    (hs : serializedSize v = Except.ok s)
    (hd : deserialize t rest = Except.ok (w, rest1)) :
    serializedSize (Val.opt none) = Except.ok 1 ∧
    serializedSize (Val.opt (some v)) = Except.ok (1 + s) ∧
    deserialize (Ty.opt t) (natToBytesLE 1 0 ++ rest0) =
      Except.ok (Val.opt none, rest0) ∧
    deserialize (Ty.opt t) (natToBytesLE 1 1 ++ rest) =
      Except.ok (Val.opt (some w), rest1) := by
  refine ⟨by simp [serializedSize], ?_, ?_, ?_⟩
  · simp [serializedSize, hs, bind, Except.bind]
  · have hr : readE 1 (natToBytesLE 1 0 ++ rest0) =
        Except.ok (natToBytesLE 1 0, rest0) :=
      readE_append 1 _ rest0 (natToBytesLE_length 1 0)
    rw [deserialize, hr]
    simp [bind, Except.bind, bytesToNatLE, natToBytesLE]
  · have hr : readE 1 (natToBytesLE 1 1 ++ rest) =
        Except.ok (natToBytesLE 1 1, rest) :=
      readE_append 1 _ rest (natToBytesLE_length 1 1)
    rw [deserialize, hr]
    simp [bind, Except.bind, bytesToNatLE, natToBytesLE, hd]

/-- Witness for claim C7: an optional single-byte integer, absent and
holding 5. -/
theorem claim7_witness :
    serializedSize (Val.opt (some (Val.arith 1 5))) = Except.ok 2 ∧
    deserialize (Ty.opt (Ty.arith 1)) [0] = Except.ok (Val.opt none, []) ∧
    deserialize (Ty.opt (Ty.arith 1)) [1, 5] =
      Except.ok (Val.opt (some (Val.arith 1 5)), []) := by
  have h := claim7_optional (Ty.arith 1) (Val.arith 1 5) (Val.arith 1 5) 1
    [5] [] [] (by simp [serializedSize])
    (by simp [deserialize, readE, readBytes, bytesToNatLE, bind, Except.bind])
  refine ⟨by simpa using h.2.1, ?_, ?_⟩
  · have h3 := h.2.2.1
    simpa [natToBytesLE] using h3
  · have h4 := h.2.2.2
    simpa [natToBytesLE] using h4

/-- Claim C8: a type satisfying the `BuiltInSerializable` contract is
dispatched entirely to its own three methods by `SerializedSize`,
`Serialize` and `Deserialize`, regardless of which other classification
branch its description would also match, because the `BuiltInSerializable`
branch is tested first. -/
theorem claim8_builtin_first (d : TyDesc) (c : Codec) (v : Val)
    (data : List Nat) (h : d.builtin = some c) :
    SerializedSize d v = c.size v ∧
    Serialize d v = c.write v ∧
    Deserialize d data = c.read data := by
  refine ⟨?_, ?_, ?_⟩ <;> simp [SerializedSize, Serialize, Deserialize, h]

/-- Witness for claim C8: `customTyDesc` also matches the boolean
collection classification, yet all three operations defer to
`customCodec`. -/
theorem claim8_witness :
    SerializedSize customTyDesc (Val.boolCol [true]) = Except.ok 7 ∧
    Serialize customTyDesc (Val.boolCol [true]) = Except.ok [1, 2] ∧
    Deserialize customTyDesc [5] = Except.ok (Val.arith 1 0, [5]) := by
  have h := claim8_builtin_first customTyDesc customCodec (Val.boolCol [true])
    [5] rfl
  exact ⟨h.1, h.2.1, h.2.2⟩

/-- The matching-position step of `variantSerAux`, with the walked list
exposed as a cons cell. -/
theorem variantSerAux_cons_eq (hm : Bool) (pos : Nat) (payload : Option Val)
    (a : Option Ty) (rest : List (Option Ty)) :
    variantSerAux hm pos payload (a :: rest) pos =
      match a with
      | none => Except.ok (natToBytesLE 8 pos)
      | some _ =>
        match payload with
        | some v => do
          let bv ← serialize v
          Except.ok (natToBytesLE 8 pos ++ bv)
        | none => Except.error () := by
  rw [variantSerAux.eq_def]
  simp

/-- Shape of a successful `variantSerAux` run: a match within the walked
suffix writes the positional ordinal as the first 8 bytes, and walking off
the end writes exactly the all-ones sentinel (possible only when a
`std::monostate` alternative exists). -/
theorem variantSerAux_ok_take (hm : Bool) (idx : Nat) (payload : Option Val)
    (suffix : List (Option Ty)) (pos : Nat) (bs : List Nat)
    (hle : pos ≤ idx)
    (h : variantSerAux hm idx payload suffix pos = Except.ok bs) :
    (idx - pos < suffix.length ∧ bs.take 8 = natToBytesLE 8 idx) ∨
    (pos + suffix.length ≤ idx ∧ bs = natToBytesLE 8 (2 ^ 64 - 1) ∧
      hm = true) := by
  induction suffix generalizing pos with
  | nil =>
    right
    rw [variantSerAux] at h
    by_cases hhm : hm
    · rw [if_pos hhm] at h
      simp only [Except.ok.injEq] at h
      exact ⟨by simpa using hle, h.symm, hhm⟩
    · rw [if_neg hhm] at h
      exact absurd h (by simp)
  | cons a rest ih =>
    by_cases he : idx = pos
    · subst he
      left
      refine ⟨by simp, ?_⟩
      rw [variantSerAux_cons_eq hm idx payload a rest] at h
      cases a with
      | none =>
        have h2 : Except.ok (natToBytesLE 8 idx) = Except.ok bs := h
        simp only [Except.ok.injEq] at h2
        subst h2
        exact List.take_of_length_le (by rw [natToBytesLE_length])
      | some t =>
        cases payload with
        | none =>
          have h2 : (Except.error () : Except Unit (List Nat)) =
              Except.ok bs := h
          exact absurd h2 (by simp)
        | some v =>
          have h2 : (do
              let bv ← serialize v
              Except.ok (natToBytesLE 8 idx ++ bv)) = Except.ok bs := h
          cases hser : serialize v with
          | error e =>
            rw [hser] at h2
            exact absurd h2 (by simp [bind, Except.bind])
          | ok bv =>
            rw [hser] at h2
            simp only [bind, Except.bind, Except.ok.injEq] at h2
            subst h2
            have hl : (natToBytesLE 8 idx).length = 8 := natToBytesLE_length 8 idx
            rw [List.take_append_of_le_length (by rw [hl])]
            exact List.take_of_length_le (by rw [hl])
    · rw [variantSerAux_cons_ne hm idx payload a rest pos he] at h
      rcases ih (pos + 1) (by omega) h with hcase | hcase
      · exact Or.inl ⟨by simp; omega, hcase.2⟩
      · exact Or.inr ⟨by simp at hcase ⊢; omega, hcase.2⟩

/-- Claim C9: a variant whose active alternative is the `std::monostate`
marker at declared position `i` is written with the plain positional
ordinal `i` as its 8-byte tag, not the all-ones sentinel; conversely, an
output starting with the all-ones sentinel tag can only arise when the
runtime index matches no declared alternative position (a valueless
variant) and a `std::monostate` alternative is declared. -/
theorem claim9_variant_mono_tag (alts : List (Option Ty)) (i idx : Nat)
    (payload payload2 : Option Val) (bs : List Nat) :
    (alts[i]? = some none → i < 2 ^ 64 - 1 →
      serialize (Val.variant alts i payload) =
        Except.ok (natToBytesLE 8 i) ∧
      natToBytesLE 8 i ≠ natToBytesLE 8 (2 ^ 64 - 1)) ∧
    (alts.length < 2 ^ 64 →
      serialize (Val.variant alts idx payload2) = Except.ok bs →
      bs.take 8 = natToBytesLE 8 (2 ^ 64 - 1) →
      alts.length ≤ idx ∧ hasMono alts = true) := by
  constructor
  · intro hget hlt
    constructor
    · rw [serialize]
      exact variantSerAux_hit_mono (hasMono alts) i payload alts 0
        (Nat.zero_le i) (by simpa using hget)
    · intro heq
      have h8 : (256 : Nat) ^ 8 = 2 ^ 64 := by norm_num
      have := natToBytesLE_inj 8 i (2 ^ 64 - 1) (by rw [h8]; omega)
        (by rw [h8]; omega) heq
      omega
  · intro hlen hser htake
    rw [serialize] at hser
    rcases variantSerAux_ok_take (hasMono alts) idx payload2 alts 0 bs
      (Nat.zero_le idx) hser with hcase | hcase
    · exfalso
      rw [htake] at hcase
      have h8 : (256 : Nat) ^ 8 = 2 ^ 64 := by norm_num
      have hidx : idx < 2 ^ 64 := by omega
      have := natToBytesLE_inj 8 idx (2 ^ 64 - 1) (by rw [h8]; omega)
        (by rw [h8]; omega) hcase.2.symm
      omega
    · exact ⟨by simpa using hcase.1, hcase.2.2⟩

/-- Witness for claim C9: the two-alternative variant whose second
alternative is `std::monostate`, held in the monostate state, is tagged
with the plain ordinal 1. -/
theorem claim9_witness :
    serialize (Val.variant [some (Ty.arith 1), none] 1 none) =
      Except.ok (natToBytesLE 8 1) ∧
    natToBytesLE 8 1 ≠ natToBytesLE 8 (2 ^ 64 - 1) :=
  (claim9_variant_mono_tag [some (Ty.arith 1), none] 1 0 none none []).1
    rfl (by norm_num)

/-- If every element of a list has a defined serialized size, so does the
list sum. -/
theorem sizeSum_ok (vs : List Val)
    (h : ∀ v ∈ vs, ∃ n, serializedSize v = Except.ok n) :
    ∃ n, sizeSum vs = Except.ok n := by
  induction vs with
  | nil => exact ⟨0, by simp [sizeSum]⟩
  | cons v rest ih =>
    obtain ⟨s, hs⟩ := h v (by simp)
    obtain ⟨t, ht⟩ := ih fun w hw => h w (by simp [hw])
    exact ⟨s + t, by rw [sizeSum]; simp [hs, ht, bind, Except.bind]⟩

/-- If every element of a list serializes, so does the concatenation. -/
theorem serList_ok (vs : List Val)
    (h : ∀ v ∈ vs, ∃ bs, serialize v = Except.ok bs) :
    ∃ bs, serList vs = Except.ok bs := by
  induction vs with
  | nil => exact ⟨[], by simp [serList]⟩
  | cons v rest ih =>
    obtain ⟨b, hb⟩ := h v (by simp)
    obtain ⟨bs, hbs⟩ := ih fun w hw => h w (by simp [hw])
    exact ⟨b ++ bs, by rw [serList]; simp [hb, hbs, bind, Except.bind]⟩

/-- Soundness of `serOk`: on every serializable runtime state, both the
size calculator and the writer succeed. -/
theorem serOk_sound : ∀ (N : Nat) (v : Val), sizeOf v < N → serOk v = true →
    (∃ n, serializedSize v = Except.ok n) ∧
    (∃ bs, serialize v = Except.ok bs) := by
  intro N
  induction N with
  | zero => intro v hv _; exact absurd hv (Nat.not_lt_zero _)
  | succ N ih =>
    intro v hv hok
    cases v with
    | arith w n =>
      exact ⟨⟨w, by simp [serializedSize]⟩,
        ⟨natToBytesLE w n, by simp [serialize]⟩⟩
    | boolCol bs =>
      exact ⟨⟨8 + (bs.length >>> 3) + (if bs.length &&& 7 ≠ 0 then 1 else 0),
          by simp [serializedSize]⟩,
        ⟨natToBytesLE 8 bs.length ++
            (if bs.length ≠ 0 then serBoolsAux bs 1 0 else []),
          by simp [serialize]⟩⟩
    | col vs =>
      have hab : ∀ v' ∈ vs, sizeOf v' < N := by
        intro v' hv'
        have h1 := List.sizeOf_lt_of_mem hv'
        have h2 : sizeOf (Val.col vs) < N + 1 := hv
        simp only [Val.col.sizeOf_spec] at h2
        omega
      have hall : ∀ v' ∈ vs, serOk v' = true := by
        simp only [serOk, List.all_eq_true] at hok
        intro v' hv'
        exact hok ⟨v', hv'⟩ (List.mem_attach vs ⟨v', hv'⟩)
      obtain ⟨s, hs⟩ :=
        sizeSum_ok vs fun v' hv' => (ih v' (hab v' hv') (hall v' hv')).1
      obtain ⟨bsl, hb⟩ :=
        serList_ok vs fun v' hv' => (ih v' (hab v' hv') (hall v' hv')).2
      exact ⟨⟨8 + s, by rw [serializedSize]; simp [hs, bind, Except.bind]⟩,
        ⟨natToBytesLE 8 vs.length ++ bsl,
          by rw [serialize]; simp [hb, bind, Except.bind]⟩⟩
    | pair a b =>
      simp only [serOk, Bool.and_eq_true] at hok
      have hszh : sizeOf (Val.pair a b) < N + 1 := hv
      simp only [Val.pair.sizeOf_spec] at hszh
      obtain ⟨⟨sa, hsa⟩, ⟨ba, hba⟩⟩ := ih a (by omega) hok.1
      obtain ⟨⟨sb, hsb⟩, ⟨bb, hbb⟩⟩ := ih b (by omega) hok.2
      exact ⟨⟨sa + sb,
          by rw [serializedSize]; simp [hsa, hsb, bind, Except.bind]⟩,
        ⟨ba ++ bb, by rw [serialize]; simp [hba, hbb, bind, Except.bind]⟩⟩
    | tup vs =>
      have hab : ∀ v' ∈ vs, sizeOf v' < N := by
        intro v' hv'
        have h1 := List.sizeOf_lt_of_mem hv'
        have h2 : sizeOf (Val.tup vs) < N + 1 := hv
        simp only [Val.tup.sizeOf_spec] at h2
        omega
      have hall : ∀ v' ∈ vs, serOk v' = true := by
        simp only [serOk, List.all_eq_true] at hok
        intro v' hv'
        exact hok ⟨v', hv'⟩ (List.mem_attach vs ⟨v', hv'⟩)
      obtain ⟨s, hs⟩ :=
        sizeSum_ok vs fun v' hv' => (ih v' (hab v' hv') (hall v' hv')).1
      obtain ⟨bsl, hb⟩ :=
        serList_ok vs fun v' hv' => (ih v' (hab v' hv') (hall v' hv')).2
      exact ⟨⟨s, by rw [serializedSize]; exact hs⟩,
        ⟨bsl, by rw [serialize]; exact hb⟩⟩
    | arr vs =>
      have hab : ∀ v' ∈ vs, sizeOf v' < N := by
        intro v' hv'
        have h1 := List.sizeOf_lt_of_mem hv'
        have h2 : sizeOf (Val.arr vs) < N + 1 := hv
        simp only [Val.arr.sizeOf_spec] at h2
        omega
      have hall : ∀ v' ∈ vs, serOk v' = true := by
        simp only [serOk, List.all_eq_true] at hok
        intro v' hv'
        exact hok ⟨v', hv'⟩ (List.mem_attach vs ⟨v', hv'⟩)
      obtain ⟨s, hs⟩ :=
        sizeSum_ok vs fun v' hv' => (ih v' (hab v' hv') (hall v' hv')).1
      obtain ⟨bsl, hb⟩ :=
        serList_ok vs fun v' hv' => (ih v' (hab v' hv') (hall v' hv')).2
      exact ⟨⟨s, by rw [serializedSize]; exact hs⟩,
        ⟨bsl, by rw [serialize]; exact hb⟩⟩
    | opt v0 =>
      cases v0 with
      | none =>
        exact ⟨⟨1, by simp [serializedSize]⟩,
          ⟨natToBytesLE 1 0, by simp [serialize]⟩⟩
      | some pv =>
        simp only [serOk] at hok
        have hszh : sizeOf (Val.opt (some pv)) < N + 1 := hv
        simp only [Val.opt.sizeOf_spec, Option.some.sizeOf_spec] at hszh
        obtain ⟨⟨s, hs⟩, ⟨bv, hb⟩⟩ := ih pv (by omega) hok
        exact ⟨⟨1 + s, by rw [serializedSize]; simp [hs, bind, Except.bind]⟩,
          ⟨natToBytesLE 1 1 ++ bv,
            by rw [serialize]; simp [hb, bind, Except.bind]⟩⟩
    | variant alts idx payload =>
      have hsz : sizeOf payload + sizeOf alts <
          sizeOf (Val.variant alts idx payload) := by
        simp only [Val.variant.sizeOf_spec]
        omega
      cases payload with
      | none =>
        simp only [serOk] at hok
        cases hga : alts[idx]? with
        | none =>
          rw [hga] at hok
          have hok2 : hasMono alts = true := hok
          have hlen : alts.length ≤ idx := List.getElem?_eq_none_iff.mp hga
          refine ⟨⟨8, ?_⟩, ⟨natToBytesLE 8 (2 ^ 64 - 1), ?_⟩⟩
          · rw [serializedSize,
              variantSSizeAux_exhaust (hasMono alts) idx none alts 0
                (by omega)]
            simp [hok2]
          · rw [serialize,
              variantSerAux_exhaust (hasMono alts) idx none alts 0 (by omega)]
            simp [hok2]
        | some oa =>
          cases oa with
          | none =>
            refine ⟨⟨8, ?_⟩, ⟨natToBytesLE 8 idx, ?_⟩⟩
            · rw [serializedSize]
              exact variantSSizeAux_hit_mono (hasMono alts) idx none alts 0
                (Nat.zero_le idx) (by simpa using hga)
            · rw [serialize]
              exact variantSerAux_hit_mono (hasMono alts) idx none alts 0
                (Nat.zero_le idx) (by simpa using hga)
          | some t =>
            rw [hga] at hok
            exact absurd hok (by simp)
      | some pv =>
        simp only [serOk] at hok
        cases hga : alts[idx]? with
        | none =>
          rw [hga] at hok
          have hok2 : hasMono alts = true := hok
          have hlen : alts.length ≤ idx := List.getElem?_eq_none_iff.mp hga
          refine ⟨⟨8, ?_⟩, ⟨natToBytesLE 8 (2 ^ 64 - 1), ?_⟩⟩
          · rw [serializedSize,
              variantSSizeAux_exhaust (hasMono alts) idx (some pv) alts 0
                (by omega)]
            simp [hok2]
          · rw [serialize,
              variantSerAux_exhaust (hasMono alts) idx (some pv) alts 0
                (by omega)]
            simp [hok2]
        | some oa =>
          cases oa with
          | none =>
            refine ⟨⟨8, ?_⟩, ⟨natToBytesLE 8 idx, ?_⟩⟩
            · rw [serializedSize]
              exact variantSSizeAux_hit_mono (hasMono alts) idx (some pv)
                alts 0 (Nat.zero_le idx) (by simpa using hga)
            · rw [serialize]
              exact variantSerAux_hit_mono (hasMono alts) idx (some pv)
                alts 0 (Nat.zero_le idx) (by simpa using hga)
          | some t =>
            rw [hga] at hok
            have hokpv : serOk pv = true := hok
            have hszh : sizeOf (Val.variant alts idx (some pv)) < N + 1 := hv
            simp only [Val.variant.sizeOf_spec, Option.some.sizeOf_spec]
              at hszh
            obtain ⟨⟨s, hs⟩, ⟨bv, hb⟩⟩ := ih pv (by omega) hokpv
            refine ⟨⟨8 + s, ?_⟩, ⟨natToBytesLE 8 idx ++ bv, ?_⟩⟩
            · rw [serializedSize]
              exact variantSSizeAux_hit_payload (hasMono alts) idx pv s t
                alts 0 (Nat.zero_le idx) (by simpa using hga) hs
            · rw [serialize]
              exact variantSerAux_hit_payload (hasMono alts) idx pv bv t
                alts 0 (Nat.zero_le idx) (by simpa using hga) hb
    | cplx w re im =>
      exact ⟨⟨w <<< 1, by simp [serializedSize]⟩,
        ⟨natToBytesLE w re ++ natToBytesLE w im, by simp [serialize]⟩⟩
    | dur w n =>
      exact ⟨⟨w, by simp [serializedSize]⟩,
        ⟨natToBytesLE w n, by simp [serialize]⟩⟩
    | timePoint w n =>
      exact ⟨⟨w, by simp [serializedSize]⟩,
        ⟨natToBytesLE w n, by simp [serialize]⟩⟩

/-- Claim C6: `SerializedSize` and `Serialize` are claimed never to raise
a runtime error on any supported value.  Counterexample: a valueless
variant (runtime index `2^64 - 1`, the value `std::variant::index()`
reports after a throwing emplace) over alternatives without a
`std::monostate` marker makes both `details::variantHelper2::
SerializedSize` and `::Serialize` walk off the alternative pack and throw
`std::out_of_range` — a runtime error outside of deserialization. -/
theorem claim6_counterexample :
    serializedSize (Val.variant [some (Ty.arith 4)] (2 ^ 64 - 1) none) =
      Except.error () ∧
    serialize (Val.variant [some (Ty.arith 4)] (2 ^ 64 - 1) none) =
      Except.error () := by
  constructor
  · rw [serializedSize,
      variantSSizeAux_exhaust _ _ _ _ 0
        (by simp only [List.length_cons, List.length_nil]; omega)]
    simp [hasMono]
  · rw [serialize,
      variantSerAux_exhaust _ _ _ _ 0
        (by simp only [List.length_cons, List.length_nil]; omega)]
    simp [hasMono]

/-- Claim C6 (amended): `SerializedSize` and `Serialize` complete without
raising any error on every serializable runtime state (`serOk`): every
variant subvalue either holds a declared alternative or is valueless with
a `std::monostate` alternative declared.  The states excluded — valueless
variants of monostate-free variant types — make both operations throw, so
the invalid-discriminant error during deserialization is not the only
runtime failure. -/
theorem claim6_amended (v : Val) (h : serOk v = true) :
    (∃ n, serializedSize v = Except.ok n) ∧
    (∃ bs, serialize v = Except.ok bs) :=
  serOk_sound (sizeOf v + 1) v (Nat.lt_succ_self _) h

/-- Witness for claim C6 (amended) at a present optional holding a 2-byte
integer. -/
theorem claim6_witness :
    (∃ n, serializedSize (Val.opt (some (Val.arith 2 300))) = Except.ok n) ∧
    (∃ bs, serialize (Val.opt (some (Val.arith 2 300))) = Except.ok bs) :=
  claim6_amended (Val.opt (some (Val.arith 2 300))) (by simp [serOk])

end BSerializer
